import Mathlib

/-!
Shallow embedding of the core of the Spotify proxy server (src/server.js):
the token-acquisition/caching subsystem (getAppToken) and the
recommendation-resolution subsystem (seed normalization, limit clamp,
market default, primary-attempt dispatch, and the 404/403 fallback
pipeline with its de-duplicating collector pushUnique).

JavaScript strings are modelled as Lean String, absent query parameters
and environment variables as Option String, JS truthiness of a string as
membership in Option String with the empty string mapped to falsiness,
and epoch seconds as Int.  Each network call is modelled by an oracle
function passed as a parameter; an oracle answering none models a thrown
network error or a non-ok response that the code swallows.
-/

namespace SpotifyProxy

/-- JS truthiness for an optional string: undefined and the empty string
are falsy, every other string is truthy. -/
def tokenTruthy : Option String → Bool
  | none => false
  | some s => decide (s ≠ "")

/-- The module-level token cache: cachedToken has fields access_token
(initially null, hence Option) and expires_at (epoch seconds). -/
structure Cached where
  access_token : Option String
  expires_at : Int
deriving DecidableEq

/-- The identity endpoint response used during a refresh: ok is res.ok,
text the raw body text, access_token and expires_in the parsed JSON
fields. -/
structure TokenResp where
  ok : Bool
  text : String
  access_token : Option String
  expires_in : Int
deriving DecidableEq

/-- The observable result of a getAppToken call: the returned token, a
thrown configuration error, or a thrown upstream token error carrying the
raw response body. -/
inductive TokenResult where
  | ok (token : Option String)
  | configError
  | upstreamError (body : String)
deriving DecidableEq

/-- getAppToken from src/server.js, as a function of the current cache,
the current epoch second, the two environment variables, the identity
endpoint response and the epoch second observed after that response.  The
returned triple is (result, new cache, number of fetches issued to the
identity endpoint). -/
def getAppToken (cache : Cached) (now : Int)
    (clientId clientSecret : Option String)
    (resp : TokenResp) (now2 : Int) : TokenResult × Cached × Nat :=
  if tokenTruthy cache.access_token = true ∧ now + 30 < cache.expires_at then
    (.ok cache.access_token, cache, 0)
  else if tokenTruthy clientId = false ∨ tokenTruthy clientSecret = false then
    (.configError, cache, 0)
  else if resp.ok = false then
    (.upstreamError resp.text, cache, 1)
  else
    let newCache : Cached := ⟨resp.access_token, now2 + resp.expires_in⟩
    (.ok newCache.access_token, newCache, 1)

/-- Whitespace characters recognised by the JS String.prototype.trim used
on seed entries. -/
def isWS (c : Char) : Bool :=
  c = ' ' ∨ c = '\t' ∨ c = '\n' ∨ c = '\r'

/-- JS String.prototype.trim on the character list of a string. -/
def trimChars (cs : List Char) : List Char :=
  ((cs.dropWhile isWS).reverse.dropWhile isWS).reverse

/-- JS String.prototype.split on the comma character: the accumulator
holds the current field reversed. -/
def splitOnCommaAux : List Char → List Char → List String
  | [], acc => [String.mk acc.reverse]
  | c :: rest, acc =>
      if c = ',' then String.mk acc.reverse :: splitOnCommaAux rest []
      else splitOnCommaAux rest (c :: acc)

/-- splitCSV from the recommendations handler: an absent or falsy value
gives the empty list, otherwise split on commas, trim every entry and
drop the empty ones. -/
def splitCSV (v : Option String) : List String :=
  match v with
  | none => []
  | some s =>
      if s = "" then []
      else (((splitOnCommaAux s.data []).map
        (fun e => String.mk (trimChars e.data))).filter (fun e => e ≠ ""))

/-- The normalized seed set built by the recommendations handler. -/
structure SeedSet where
  artists : List String
  tracks : List String
  genres : List String
deriving DecidableEq

/-- Seed normalization from the recommendations handler: split the three
comma-separated query parameters, substitute the default genres when no
seed at all was supplied, then enforce the global five-seed cap with
priority artists, then tracks, then genres. -/
def normalizeSeeds (sa st sg : Option String) : SeedSet :=
  let artistsArr := splitCSV sa
  let tracksArr := splitCSV st
  let genresArr0 := splitCSV sg
  let genresArr :=
    if artistsArr.length + tracksArr.length + genresArr0.length = 0 then
      ["pop", "rock", "hip-hop"]
    else genresArr0
  let artistsArr2 := artistsArr.take 5
  let remaining1 := 5 - artistsArr2.length
  let tracksArr2 := tracksArr.take remaining1
  let remaining2 := remaining1 - tracksArr2.length
  let genresArr2 := genresArr.take remaining2
  ⟨artistsArr2, tracksArr2, genresArr2⟩

/-- The longest digit prefix of a character list, as a number; none when
there is no leading digit (the NaN case of JS parseInt). -/
def parseDigits (cs : List Char) : Option Nat :=
  let ds := cs.takeWhile Char.isDigit
  if ds = [] then none
  else some (ds.foldl (fun a c => a * 10 + (c.toNat - 48)) 0)

/-- JS parseInt with radix 10: skip leading whitespace, read an optional
sign, then the longest digit prefix; none models NaN. -/
def jsParseInt (s : String) : Option Int :=
  match s.data.dropWhile isWS with
  | '-' :: rest => (parseDigits rest).map (fun n => -(n : Int))
  | '+' :: rest => (parseDigits rest).map (fun n => (n : Int))
  | cs => (parseDigits cs).map (fun n => (n : Int))

/-- The limit clamp from the recommendations handler:
parseInt(req.query.limit or "20", 10) or 20, then clamped into [1, 100].
A parse result of 0 is falsy in JS, so it falls back to the default 20;
so does a NaN parse and an absent or empty parameter. -/
def clampLimit (q : Option String) : Int :=
  let raw := match q with
    | none => "20"
    | some s => if s = "" then "20" else s
  let n : Int := match jsParseInt raw with
    | none => 20
    | some v => if v = 0 then 20 else v
  min (max n 1) 100

/-- The market parameter assembled by the recommendations handler:
(req.query.market or "US"), so an absent or empty market becomes "US". -/
def resolveMarket (m : Option String) : String :=
  match m with
  | none => "US"
  | some s => if s = "" then "US" else s

/-- Outcome of the primary attempt of the recommendations handler, with
the abstract type J standing for parsed JSON values. -/
inductive RecoOutcome (J : Type) where
  | success (data : J)
  | fallbackEntered
  | upstreamError (status : Nat) (payload : J ⊕ String) (url : String)
deriving DecidableEq

/-- The parsed-or-raw error payload built for a non-fallback upstream
error: bodyJson when the non-empty body parses, otherwise the raw body
text, or the placeholder when the body is empty. -/
def errorPayload {J : Type} (parse : String → Option J) (text : String) :
    J ⊕ String :=
  if text = "" then Sum.inr "(empty body)"
  else match parse text with
    | some j => Sum.inl j
    | none => Sum.inr text

/-- Status dispatch of the primary attempt in the recommendations
handler: r.ok returns the parsed body unchanged, 404 and 403 enter the
fallback, and every other status terminates with the upstream error
payload and the constructed URL. -/
def dispatchPrimary {J : Type} (status : Nat) (data : J) (text : String)
    (parse : String → Option J) (url : String) : RecoOutcome J :=
  if 200 ≤ status ∧ status < 300 then .success data
  else if status = 404 ∨ status = 403 then .fallbackEntered
  else .upstreamError status (errorPayload parse text) url

/-- A track object as seen by pushUnique: the id field may be absent
(none) or empty (falsy); the payload stands for all other fields. -/
structure RawTrack where
  id : Option String
  payload : String
deriving DecidableEq

/-- Whether pushUnique regards a track's id as present and truthy. -/
def idOk (t : RawTrack) : Bool :=
  match t.id with
  | none => false
  | some s => decide (s ≠ "")

/-- The dedup key of a collected track. -/
def keyOf (t : RawTrack) : String := t.id.getD ""

/-- The collector state of the fallback pipeline: the collected array and
the seen id set (a JS Set, modelled as its insertion-ordered list). -/
structure FbState where
  collected : List RawTrack
  seen : List String
deriving DecidableEq

/-- The empty collector the fallback starts from. -/
def fbInit : FbState := ⟨[], []⟩

/-- pushUnique from the fallback: a null item, an item with a falsy id,
and an item whose id was already seen are discarded; otherwise the item
is appended and its id recorded. -/
def pushUnique (st : FbState) (item : Option RawTrack) : FbState :=
  match item with
  | none => st
  | some t =>
      match t.id with
      | none => st
      | some i =>
          if i = "" then st
          else if i ∈ st.seen then st
          else ⟨st.collected ++ [t], st.seen ++ [i]⟩

/-- A network call issued by one of the three fallback stages. -/
inductive FbCall where
  | topTracks (artistId : String)
  | genreSearch (genre : String)
  | trackLookup (trackId : String)
deriving DecidableEq

/-- The upstream answers available to the fallback stages.  A result of
none models a thrown fetch, a parse failure, or a non-ok sub-response —
all swallowed by the code.  List elements and the looked-up track are
Option RawTrack because the upstream JSON may hold null entries. -/
structure FbOracles where
  topTracks : String → Option (List (Option RawTrack))
  genreSearch : String → Option (List (Option RawTrack))
  trackLookup : String → Option (Option RawTrack)

/-- Effect of one seed iteration whose answer is a list of tracks: push
every track of the answer in order, or nothing on a swallowed failure. -/
def applyFetchList (fetch : String → Option (List (Option RawTrack)))
    (st : FbState) (x : String) : FbState :=
  match fetch x with
  | some items => items.foldl pushUnique st
  | none => st

/-- Effect of one artist-seed iteration on the collector: push every
track of the artist's top-tracks answer, or nothing on failure. -/
def applyArtist (o : FbOracles) : FbState → String → FbState :=
  applyFetchList o.topTracks

/-- Effect of one genre-seed iteration on the collector. -/
def applyGenre (o : FbOracles) : FbState → String → FbState :=
  applyFetchList o.genreSearch

/-- Effect of one track-seed iteration on the collector: push the single
looked-up track, or nothing on failure. -/
def applyTrack (o : FbOracles) (st : FbState) (tid : String) : FbState :=
  match o.trackLookup tid with
  | some item => pushUnique st item
  | none => st

/-- The common shape of the three fallback loops: per seed apply one
step (one network call, recorded through mark), then break as soon as
the collection has reached the limit.  The second component lists the
calls issued, in order. -/
def loopStage (step : FbState → String → FbState) (mark : String → FbCall)
    (limit : Nat) : List String → FbState → FbState × List FbCall
  | [], st => (st, [])
  | x :: rest, st =>
      let st2 := step st x
      if limit ≤ st2.collected.length then (st2, [mark x])
      else
        let r := loopStage step mark limit rest st2
        (r.1, mark x :: r.2)

/-- The artist-seed loop of the fallback: one top-tracks call per artist
in seed order, breaking after any iteration that reaches the limit. -/
def artistStage (o : FbOracles) (limit : Nat) (seeds : List String)
    (st : FbState) : FbState × List FbCall :=
  loopStage (applyArtist o) FbCall.topTracks limit seeds st

/-- The genre-seed loop of the fallback: one search call per genre,
breaking after any iteration that reaches the limit. -/
def genreStage (o : FbOracles) (limit : Nat) (seeds : List String)
    (st : FbState) : FbState × List FbCall :=
  loopStage (applyGenre o) FbCall.genreSearch limit seeds st

/-- The track-seed loop of the fallback: one direct lookup per track,
breaking after any iteration that reaches the limit. -/
def trackStage (o : FbOracles) (limit : Nat) (seeds : List String)
    (st : FbState) : FbState × List FbCall :=
  loopStage (applyTrack o) FbCall.trackLookup limit seeds st

/-- The entry guard shared by the second and third fallback stages: the
stage runs only while the collection is still short of the limit and the
relevant seed list is non-empty; otherwise the collector passes through
with no calls issued. -/
def gatedStage (stage : FbState → FbState × List FbCall)
    (seeds : List String) (limit : Nat) (r : FbState × List FbCall) :
    FbState × List FbCall :=
  if r.1.collected.length < limit ∧ seeds ≠ [] then stage r.1 else (r.1, [])

/-- The whole fallback pipeline: the artist stage always runs; the genre
stage runs only while still short of the limit and genre seeds exist; the
track stage runs only while still short of the limit and track seeds
exist.  Returns the final collector and the calls in issue order. -/
def runFallback (o : FbOracles) (artists genres tracks : List String)
    (limit : Nat) : FbState × List FbCall :=
  let r1 := artistStage o limit artists fbInit
  let r2 := gatedStage (genreStage o limit genres) genres limit r1
  let r3 := gatedStage (trackStage o limit tracks) tracks limit r2
  (r3.1, r1.2 ++ r2.2 ++ r3.2)

/-- The body of the fallback response: collected.slice(0, limit). -/
def fallbackResponse (o : FbOracles) (artists genres tracks : List String)
    (limit : Nat) : List RawTrack :=
  ((runFallback o artists genres tracks limit).1.collected).take limit

/-- Internal consistency of the collector: the seen set lists exactly
the keys of the collected tracks in order, holds no duplicate, and every
collected track has a truthy id. -/
def stInv (st : FbState) : Prop :=
  st.seen = st.collected.map keyOf ∧ st.seen.Nodup ∧
    ∀ tk ∈ st.collected, idOk tk = true

/-- One collector dominates another when it has seen every id the other
has seen. -/
def seenLE (s t : FbState) : Prop :=
  ∀ x, x ∈ s.seen → x ∈ t.seen

/-- Pointwise degradation of oracles: p answers each sub-call either
with a swallowed failure or exactly as o does. -/
def oracleLE (p o : FbOracles) : Prop :=
  (∀ a, p.topTracks a = none ∨ p.topTracks a = o.topTracks a) ∧
  (∀ g, p.genreSearch g = none ∨ p.genreSearch g = o.genreSearch g) ∧
  (∀ t, p.trackLookup t = none ∨ p.trackLookup t = o.trackLookup t)

/-- An upstream where every fallback sub-call fails. -/
def failingOracles : FbOracles :=
  ⟨fun _ => none, fun _ => none, fun _ => none⟩

/-- A concrete upstream whose every artist answers two tracks. -/
def twoTrackOracles : FbOracles :=
  ⟨fun _ => some [some ⟨some "t1", "p"⟩, some ⟨some "t2", "q"⟩],
    fun _ => none, fun _ => none⟩

/-- A concrete upstream where artists A1 and A2 have overlapping top
tracks: both answer a track with id t2, with different payloads. -/
def overlapOracles : FbOracles :=
  ⟨fun x =>
    if x = "A1" then some [some ⟨some "t1", "p1"⟩, some ⟨some "t2", "p2"⟩]
    else if x = "A2" then
      some [some ⟨some "t2", "other"⟩, some ⟨some "t3", "p3"⟩]
    else none,
    fun _ => none, fun _ => none⟩

/-- A concrete upstream whose every artist answers one track. -/
def oneTrackOracles : FbOracles :=
  ⟨fun _ => some [some ⟨some "t1", "p"⟩], fun _ => none, fun _ => none⟩

/-- C1: a getAppToken call finding a cached token with more than 30
seconds to expiry returns it with zero fetches to the identity endpoint;
a call finding no cached token, or one with less than 30 seconds left,
performs exactly one refresh fetch (given credentials are configured). -/
theorem C1_token_cache_reuse :
    ∀ (cache : Cached) (now : Int) (clientId clientSecret : Option String)
      (resp : TokenResp) (now2 : Int),
      (tokenTruthy cache.access_token = true → now + 30 < cache.expires_at →
        getAppToken cache now clientId clientSecret resp now2 =
          (.ok cache.access_token, cache, 0)) ∧
      ((tokenTruthy cache.access_token = false ∨ cache.expires_at < now + 30) →
        tokenTruthy clientId = true → tokenTruthy clientSecret = true →
        (getAppToken cache now clientId clientSecret resp now2).2.2 = 1) := by
  intro cache now clientId clientSecret resp now2
  constructor
  · intro h1 h2
    rw [getAppToken, if_pos ⟨h1, h2⟩]
  · intro hmiss hid hsec
    have hcond : ¬ (tokenTruthy cache.access_token = true ∧
        now + 30 < cache.expires_at) := by
      rcases hmiss with h | h
      · intro hc; rw [hc.1] at h; exact Bool.noConfusion h
      · intro hc; exact absurd hc.2 (by omega)
    have hconf : ¬ (tokenTruthy clientId = false ∨
        tokenTruthy clientSecret = false) := by
      intro hc
      rcases hc with h | h
      · rw [hid] at h; exact Bool.noConfusion h
      · rw [hsec] at h; exact Bool.noConfusion h
    rw [getAppToken, if_neg hcond, if_neg hconf]
    by_cases hok : resp.ok = false
    · rw [if_pos hok]
    · rw [if_neg hok]

/-- C1 witness at concrete inputs: a fresh cache is served with zero
fetches, and an empty cache triggers exactly one refresh fetch. -/
theorem C1_token_cache_reuse_witness :
    getAppToken ⟨some "tok", 1000⟩ 900 none none ⟨true, "", some "t2", 3600⟩ 901 =
      (.ok (some "tok"), ⟨some "tok", 1000⟩, 0) ∧
    (getAppToken ⟨none, 0⟩ 900 (some "id") (some "sec")
      ⟨true, "", some "t2", 3600⟩ 901).2.2 = 1 := by
  constructor
  · exact (C1_token_cache_reuse ⟨some "tok", 1000⟩ 900 none none
      ⟨true, "", some "t2", 3600⟩ 901).1 (by decide) (by decide)
  · exact (C1_token_cache_reuse ⟨none, 0⟩ 900 (some "id") (some "sec")
      ⟨true, "", some "t2", 3600⟩ 901).2 (Or.inl (by decide)) (by decide) (by decide)

/-- C7: on the refresh path, a missing client id or secret yields the
configuration error with zero network calls, and a non-ok identity
response yields the upstream auth error carrying the raw response body. -/
theorem C7_token_failure_contract :
    ∀ (cache : Cached) (now : Int) (clientId clientSecret : Option String)
      (resp : TokenResp) (now2 : Int),
      (¬ (tokenTruthy cache.access_token = true ∧ now + 30 < cache.expires_at) →
        (tokenTruthy clientId = false ∨ tokenTruthy clientSecret = false) →
        getAppToken cache now clientId clientSecret resp now2 =
          (.configError, cache, 0)) ∧
      (¬ (tokenTruthy cache.access_token = true ∧ now + 30 < cache.expires_at) →
        tokenTruthy clientId = true → tokenTruthy clientSecret = true →
        resp.ok = false →
        getAppToken cache now clientId clientSecret resp now2 =
          (.upstreamError resp.text, cache, 1)) := by
  intro cache now clientId clientSecret resp now2
  constructor
  · intro hstale hconf
    rw [getAppToken, if_neg hstale, if_pos hconf]
  · intro hstale hid hsec hok
    have hconf : ¬ (tokenTruthy clientId = false ∨
        tokenTruthy clientSecret = false) := by
      intro hc
      rcases hc with h | h
      · rw [hid] at h; exact Bool.noConfusion h
      · rw [hsec] at h; exact Bool.noConfusion h
    rw [getAppToken, if_neg hstale, if_neg hconf, if_pos hok]

/-- C7 witness at concrete inputs: missing secret fails with zero
fetches; a rejected exchange carries the raw body "bad client". -/
theorem C7_token_failure_contract_witness :
    getAppToken ⟨none, 0⟩ 900 (some "id") none ⟨true, "", some "t", 60⟩ 901 =
      (.configError, ⟨none, 0⟩, 0) ∧
    getAppToken ⟨none, 0⟩ 900 (some "id") (some "sec")
      ⟨false, "bad client", none, 0⟩ 901 =
      (.upstreamError "bad client", ⟨none, 0⟩, 1) := by
  constructor
  · exact (C7_token_failure_contract ⟨none, 0⟩ 900 (some "id") none
      ⟨true, "", some "t", 60⟩ 901).1 (by decide) (by decide)
  · exact (C7_token_failure_contract ⟨none, 0⟩ 900 (some "id") (some "sec")
      ⟨false, "bad client", none, 0⟩ 901).2 (by decide) (by decide) (by decide) rfl

/-- C2: seed normalization splits, trims and drops empties; substitutes
the default genres exactly when no seed survives; and caps the union at
five with priority artists, tracks, genres.  Includes the no-seed default
and the six-artist scenario from the spec. -/
theorem C2_seed_normalization :
    (∀ sa st sg : Option String,
      (normalizeSeeds sa st sg).artists.length +
      (normalizeSeeds sa st sg).tracks.length +
      (normalizeSeeds sa st sg).genres.length ≤ 5) ∧
    (∀ sa st sg : Option String,
      (normalizeSeeds sa st sg).artists = (splitCSV sa).take 5) ∧
    (∀ sa st sg : Option String,
      (normalizeSeeds sa st sg).tracks =
        (splitCSV st).take (5 - (normalizeSeeds sa st sg).artists.length)) ∧
    (∀ sa st sg : Option String,
      (normalizeSeeds sa st sg).genres =
        (if (splitCSV sa).length + (splitCSV st).length + (splitCSV sg).length = 0
         then ["pop", "rock", "hip-hop"] else splitCSV sg).take
          (5 - (normalizeSeeds sa st sg).artists.length -
            (normalizeSeeds sa st sg).tracks.length)) ∧
    splitCSV (some " a , ,b,") = ["a", "b"] ∧
    normalizeSeeds none none none = ⟨[], [], ["pop", "rock", "hip-hop"]⟩ ∧
    normalizeSeeds (some "A1,A2,A3,A4,A5,A6") none none =
      ⟨["A1", "A2", "A3", "A4", "A5"], [], []⟩ := by
  refine ⟨?_, ?_, ?_, ?_, by decide, by decide, by decide⟩
  · intro sa st sg
    simp only [normalizeSeeds]
    have h1 := List.length_take_le 5 (splitCSV sa)
    have h2 := List.length_take_le (5 - ((splitCSV sa).take 5).length) (splitCSV st)
    have h3 := List.length_take_le
      (5 - ((splitCSV sa).take 5).length -
        ((splitCSV st).take (5 - ((splitCSV sa).take 5).length)).length)
      (if (splitCSV sa).length + (splitCSV st).length + (splitCSV sg).length = 0
       then ["pop", "rock", "hip-hop"] else splitCSV sg)
    omega
  · intro sa st sg; rfl
  · intro sa st sg; rfl
  · intro sa st sg; rfl

/-- C6 counterexample: the input "0" is below the range [1, 100], so the
claim requires a clamp to 1, but the code resolves it to the default 20
because the parsed 0 is falsy in JavaScript. -/
theorem C6_limit_clamp_counterexample :
    clampLimit (some "0") = 20 ∧ ¬ clampLimit (some "0") = 1 := by decide

/-- C6 amended: the resolved limit is always an integer in [1, 100];
absent, empty and non-numeric inputs default to 20; an input parsing to 0
also defaults to 20 (falsy parse result); negative parses clamp to 1,
parses above 100 clamp to 100, and in-range parses pass through. -/
theorem C6_limit_clamp_amended :
    (∀ q : Option String, 1 ≤ clampLimit q ∧ clampLimit q ≤ 100) ∧
    clampLimit none = 20 ∧
    clampLimit (some "") = 20 ∧
    (∀ s : String, jsParseInt s = none → clampLimit (some s) = 20) ∧
    (∀ s : String, jsParseInt s = some 0 → clampLimit (some s) = 20) ∧
    (∀ (s : String) (n : Int), jsParseInt s = some n → n < 0 →
      clampLimit (some s) = 1) ∧
    (∀ (s : String) (n : Int), jsParseInt s = some n → 100 < n →
      clampLimit (some s) = 100) ∧
    (∀ (s : String) (n : Int), jsParseInt s = some n → 1 ≤ n → n ≤ 100 →
      clampLimit (some s) = n) := by
  have hne : ∀ s : String, s ≠ "" → ∀ r : Option Int, jsParseInt s = r →
      clampLimit (some s) =
        min (max (match r with
          | none => (20 : Int)
          | some v => if v = 0 then 20 else v) 1) 100 := by
    intro s hs r hr
    simp only [clampLimit, if_neg hs, hr]
  refine ⟨?_, by decide, by decide, ?_, ?_, ?_, ?_, ?_⟩
  · intro q
    simp only [clampLimit]
    constructor
    · exact le_min (le_max_right _ _) (by norm_num)
    · exact min_le_right _ _
  · intro s h
    by_cases hs : s = ""
    · subst hs; decide
    · rw [hne s hs none h]; norm_num
  · intro s h
    by_cases hs : s = ""
    · subst hs; decide
    · rw [hne s hs (some 0) h]; norm_num
  · intro s n h hn
    by_cases hs : s = ""
    · subst hs; simp [jsParseInt, parseDigits] at h
    · rw [hne s hs (some n) h]
      have hn0 : ¬ n = 0 := by omega
      simp only [if_neg hn0]
      rw [max_eq_right (by omega), min_eq_left (by omega)]
  · intro s n h hn
    by_cases hs : s = ""
    · subst hs; simp [jsParseInt, parseDigits] at h
    · rw [hne s hs (some n) h]
      have hn0 : ¬ n = 0 := by omega
      simp only [if_neg hn0]
      rw [max_eq_left (by omega), min_eq_right (by omega)]
  · intro s n h h1 h100
    by_cases hs : s = ""
    · subst hs; simp [jsParseInt, parseDigits] at h
    · rw [hne s hs (some n) h]
      have hn0 : ¬ n = 0 := by omega
      simp only [if_neg hn0]
      rw [max_eq_left h1, min_eq_left h100]

/-- C6 amended witness at concrete inputs: bounds at "7"; defaults,
clamps and pass-through at "abc", "0", "-5", "250" and "37". -/
theorem C6_limit_clamp_amended_witness :
    (1 ≤ clampLimit (some "7") ∧ clampLimit (some "7") ≤ 100) ∧
    clampLimit (some "abc") = 20 ∧
    clampLimit (some "0") = 20 ∧
    clampLimit (some "-5") = 1 ∧
    clampLimit (some "250") = 100 ∧
    clampLimit (some "37") = 37 := by
  refine ⟨C6_limit_clamp_amended.1 (some "7"),
    C6_limit_clamp_amended.2.2.2.1 "abc" (by decide),
    C6_limit_clamp_amended.2.2.2.2.1 "0" (by decide),
    C6_limit_clamp_amended.2.2.2.2.2.1 "-5" (-5) (by decide) (by decide),
    C6_limit_clamp_amended.2.2.2.2.2.2.1 "250" 250 (by decide) (by decide),
    C6_limit_clamp_amended.2.2.2.2.2.2.2 "37" 37 (by decide) (by decide) (by decide)⟩

/-- C9 counterexample: a supplied but empty market parameter is rewritten
to "US" rather than passed through, because the code defaults on every
falsy value, not only on absence. -/
theorem C9_market_default_counterexample :
    resolveMarket (some "") = "US" ∧ ¬ resolveMarket (some "") = "" := by decide

/-- C9 amended: an absent or empty market defaults to "US"; a supplied
non-empty market is passed through unchanged. -/
theorem C9_market_default_amended :
    resolveMarket none = "US" ∧
    resolveMarket (some "") = "US" ∧
    (∀ s : String, s ≠ "" → resolveMarket (some s) = s) := by
  refine ⟨rfl, by decide, ?_⟩
  intro s h
  simp only [resolveMarket, if_neg h]

/-- C9 amended witness: a supplied market "GB" passes through. -/
theorem C9_market_default_amended_witness :
    resolveMarket (some "GB") = "GB" :=
  C9_market_default_amended.2.2 "GB" (by decide)

/-- C4: primary-attempt dispatch — a 2xx status returns the parsed body
unchanged, exactly the statuses 404 and 403 enter the fallback, and every
other non-2xx status terminates with the upstream status, the
parsed-or-raw body payload and the constructed URL. -/
theorem C4_primary_dispatch :
    ∀ (J : Type) (status : Nat) (data : J) (text : String)
      (parse : String → Option J) (url : String),
      (200 ≤ status ∧ status < 300 →
        dispatchPrimary status data text parse url = .success data) ∧
      (status = 404 ∨ status = 403 →
        dispatchPrimary status data text parse url = .fallbackEntered) ∧
      (¬ (200 ≤ status ∧ status < 300) → ¬ status = 404 → ¬ status = 403 →
        dispatchPrimary status data text parse url =
          .upstreamError status (errorPayload parse text) url) := by
  intro J status data text parse url
  refine ⟨?_, ?_, ?_⟩
  · intro h
    rw [dispatchPrimary, if_pos h]
  · intro h
    have h2 : ¬ (200 ≤ status ∧ status < 300) := by
      rcases h with h | h <;> subst h <;> omega
    rw [dispatchPrimary, if_neg h2, if_pos h]
  · intro h2 h404 h403
    rw [dispatchPrimary, if_neg h2, if_neg (by tauto)]

/-- C4 witness at concrete inputs over J = Nat: 200 returns the body, 404
enters fallback, 500 surfaces the raw body and URL. -/
theorem C4_primary_dispatch_witness :
    dispatchPrimary 200 (7 : Nat) "x" (fun _ => none) "u" = .success 7 ∧
    dispatchPrimary 404 (7 : Nat) "x" (fun _ => none) "u" = .fallbackEntered ∧
    dispatchPrimary 500 (7 : Nat) "body" (fun _ => none) "u" =
      .upstreamError 500 (Sum.inr "body") "u" := by
  refine ⟨(C4_primary_dispatch Nat 200 7 "x" (fun _ => none) "u").1 (by omega),
    (C4_primary_dispatch Nat 404 7 "x" (fun _ => none) "u").2.1 (Or.inl rfl), ?_⟩
  rw [(C4_primary_dispatch Nat 500 7 "body" (fun _ => none) "u").2.2
    (by omega) (by omega) (by omega)]
  rfl

/-- The initial collector satisfies the invariant. -/
theorem stInv_fbInit : stInv fbInit :=
  ⟨rfl, List.nodup_nil, fun tk h => absurd h (List.not_mem_nil tk)⟩

/-- pushUnique preserves the collector invariant. -/
theorem stInv_pushUnique (st : FbState) (it : Option RawTrack)
    (h : stInv st) : stInv (pushUnique st it) := by
  obtain ⟨hmap, hnd, hids⟩ := h
  cases it with
  | none => exact ⟨hmap, hnd, hids⟩
  | some tk =>
    cases htk : tk.id with
    | none =>
      simp only [pushUnique, htk]
      exact ⟨hmap, hnd, hids⟩
    | some i =>
      by_cases hi : i = ""
      · simp only [pushUnique, htk, if_pos hi]
        exact ⟨hmap, hnd, hids⟩
      · by_cases hmem : i ∈ st.seen
        · simp only [pushUnique, htk, if_neg hi, if_pos hmem]
          exact ⟨hmap, hnd, hids⟩
        · simp only [pushUnique, htk, if_neg hi, if_neg hmem]
          refine ⟨?_, ?_, ?_⟩
          · simp only [List.map_append, List.map_cons, List.map_nil]
            rw [hmap]
            have hk : keyOf tk = i := by simp [keyOf, htk]
            rw [hk]
          · rw [List.nodup_append]
            refine ⟨hnd, List.nodup_singleton i, ?_⟩
            intro x hx hxi
            rw [List.mem_singleton] at hxi
            subst hxi
            exact hmem hx
          · intro tk2 h2
            rcases List.mem_append.mp h2 with h2 | h2
            · exact hids tk2 h2
            · rw [List.mem_singleton] at h2
              subst h2
              simp [idOk, htk, hi]

/-- Folding pushUnique over any item list preserves the invariant. -/
theorem stInv_foldl (items : List (Option RawTrack)) (st : FbState)
    (h : stInv st) : stInv (items.foldl pushUnique st) := by
  induction items generalizing st with
  | nil => exact h
  | cons it rest ih => exact ih _ (stInv_pushUnique st it h)

/-- A list-answer step preserves the invariant. -/
theorem stInv_applyFetchList (fetch : String → Option (List (Option RawTrack)))
    (st : FbState) (x : String) (h : stInv st) :
    stInv (applyFetchList fetch st x) := by
  cases hf : fetch x with
  | none => simp only [applyFetchList, hf]; exact h
  | some items => simp only [applyFetchList, hf]; exact stInv_foldl items st h

/-- A track-lookup step preserves the invariant. -/
theorem stInv_applyTrack (o : FbOracles) (st : FbState) (x : String)
    (h : stInv st) : stInv (applyTrack o st x) := by
  cases hf : o.trackLookup x with
  | none => simp only [applyTrack, hf]; exact h
  | some item => simp only [applyTrack, hf]; exact stInv_pushUnique st item h

/-- A fallback loop preserves the invariant whenever its step does. -/
theorem stInv_loopStage (step : FbState → String → FbState)
    (mark : String → FbCall) (limit : Nat) (seeds : List String)
    (st : FbState) (hstep : ∀ s x, stInv s → stInv (step s x)) (h : stInv st) :
    stInv (loopStage step mark limit seeds st).1 := by
  induction seeds generalizing st with
  | nil => exact h
  | cons x rest ih =>
    simp only [loopStage]
    by_cases hb : limit ≤ (step st x).collected.length
    · rw [if_pos hb]
      exact hstep st x h
    · rw [if_neg hb]
      exact ih _ (hstep st x h)

/-- pushUnique never removes collected tracks. -/
theorem length_le_pushUnique (st : FbState) (it : Option RawTrack) :
    st.collected.length ≤ (pushUnique st it).collected.length := by
  cases it with
  | none => exact le_refl _
  | some tk =>
    cases htk : tk.id with
    | none => simp only [pushUnique, htk]; exact le_refl _
    | some i =>
      by_cases hi : i = ""
      · simp only [pushUnique, htk, if_pos hi]; exact le_refl _
      · by_cases hmem : i ∈ st.seen
        · simp only [pushUnique, htk, if_neg hi, if_pos hmem]; exact le_refl _
        · simp only [pushUnique, htk, if_neg hi, if_neg hmem,
            List.length_append]
          omega

/-- Folding pushUnique never shrinks the collection. -/
theorem length_le_foldl (items : List (Option RawTrack)) (st : FbState) :
    st.collected.length ≤ (items.foldl pushUnique st).collected.length := by
  induction items generalizing st with
  | nil => exact le_refl _
  | cons it rest ih =>
    exact (length_le_pushUnique st it).trans (ih (pushUnique st it))

/-- A list-answer step never shrinks the collection. -/
theorem length_le_applyFetchList
    (fetch : String → Option (List (Option RawTrack))) (st : FbState)
    (x : String) : st.collected.length ≤ (applyFetchList fetch st x).collected.length := by
  cases hf : fetch x with
  | none => simp only [applyFetchList, hf]; exact le_refl _
  | some items => simp only [applyFetchList, hf]; exact length_le_foldl items st

/-- A track-lookup step never shrinks the collection. -/
theorem length_le_applyTrack (o : FbOracles) (st : FbState) (x : String) :
    st.collected.length ≤ (applyTrack o st x).collected.length := by
  cases hf : o.trackLookup x with
  | none => simp only [applyTrack, hf]; exact le_refl _
  | some item => simp only [applyTrack, hf]; exact length_le_pushUnique st item

/-- Any fold of a non-shrinking step never shrinks the collection. -/
theorem length_le_foldl_step (step : FbState → String → FbState)
    (hstep : ∀ s x, s.collected.length ≤ (step s x).collected.length)
    (seeds : List String) (st : FbState) :
    st.collected.length ≤ (seeds.foldl step st).collected.length := by
  induction seeds generalizing st with
  | nil => exact le_refl _
  | cons x rest ih => exact (hstep st x).trans (ih (step st x))

/-- A fallback loop never shrinks the collection. -/
theorem length_le_loopStage (step : FbState → String → FbState)
    (mark : String → FbCall) (limit : Nat) (seeds : List String)
    (st : FbState)
    (hstep : ∀ s x, s.collected.length ≤ (step s x).collected.length) :
    st.collected.length ≤ (loopStage step mark limit seeds st).1.collected.length := by
  induction seeds generalizing st with
  | nil => exact le_refl _
  | cons x rest ih =>
    simp only [loopStage]
    by_cases hb : limit ≤ (step st x).collected.length
    · rw [if_pos hb]
      exact hstep st x
    · rw [if_neg hb]
      exact (hstep st x).trans (ih (step st x))

/-- A fallback loop that finished below the limit never hit a break, so
its final collector is the plain fold of its step over all its seeds. -/
theorem loopStage_eq_foldl (step : FbState → String → FbState)
    (mark : String → FbCall) (limit : Nat) (seeds : List String)
    (st : FbState)
    (h : (loopStage step mark limit seeds st).1.collected.length < limit) :
    (loopStage step mark limit seeds st).1 = seeds.foldl step st := by
  induction seeds generalizing st with
  | nil => rfl
  | cons x rest ih =>
    simp only [loopStage] at h ⊢
    by_cases hb : limit ≤ (step st x).collected.length
    · rw [if_pos hb] at h
      exact absurd h (not_lt.mpr hb)
    · rw [if_neg hb] at h ⊢
      exact ih _ h

/-- A fallback loop collects no more than the plain fold of its step. -/
theorem loopStage_le_foldl (step : FbState → String → FbState)
    (mark : String → FbCall) (limit : Nat) (seeds : List String)
    (st : FbState)
    (hstep : ∀ s x, s.collected.length ≤ (step s x).collected.length) :
    (loopStage step mark limit seeds st).1.collected.length ≤
      (seeds.foldl step st).collected.length := by
  induction seeds generalizing st with
  | nil => exact le_refl _
  | cons x rest ih =>
    simp only [loopStage, List.foldl_cons]
    by_cases hb : limit ≤ (step st x).collected.length
    · rw [if_pos hb]
      exact length_le_foldl_step step hstep rest (step st x)
    · rw [if_neg hb]
      exact ih (step st x)

/-- Every call issued by a fallback loop is the mark of one of its
seeds. -/
theorem loopStage_calls (step : FbState → String → FbState)
    (mark : String → FbCall) (limit : Nat) (seeds : List String)
    (st : FbState) :
    ∀ c ∈ (loopStage step mark limit seeds st).2, ∃ x ∈ seeds, c = mark x := by
  induction seeds generalizing st with
  | nil =>
    intro c hc
    simp only [loopStage, List.not_mem_nil] at hc
  | cons x rest ih =>
    intro c hc
    simp only [loopStage] at hc
    by_cases hb : limit ≤ (step st x).collected.length
    · rw [if_pos hb] at hc
      rw [List.mem_singleton] at hc
      exact ⟨x, List.mem_cons_self x rest, hc⟩
    · rw [if_neg hb] at hc
      rcases List.mem_cons.mp hc with h | h
      · exact ⟨x, List.mem_cons_self x rest, h⟩
      · obtain ⟨y, hy, hcy⟩ := ih _ c h
        exact ⟨y, List.mem_cons_of_mem x hy, hcy⟩

/-- A fallback loop whose first step already reaches the limit breaks
right after that single call. -/
theorem loopStage_break (step : FbState → String → FbState)
    (mark : String → FbCall) (limit : Nat) (x : String) (rest : List String)
    (st : FbState) (h : limit ≤ (step st x).collected.length) :
    loopStage step mark limit (x :: rest) st = (step st x, [mark x]) := by
  simp only [loopStage, if_pos h]

/-- A fallback loop whose first step has no effect (a swallowed failure)
continues with the remaining seeds from the unchanged collector. -/
theorem loopStage_skip (step : FbState → String → FbState)
    (mark : String → FbCall) (limit : Nat) (x : String) (rest : List String)
    (st : FbState) (h : step st x = st) :
    (loopStage step mark limit (x :: rest) st).1 =
      if limit ≤ st.collected.length then st
      else (loopStage step mark limit rest st).1 := by
  simp only [loopStage, h]
  by_cases hb : limit ≤ st.collected.length
  · rw [if_pos hb, if_pos hb]
  · rw [if_neg hb, if_neg hb]

/-- pushUnique never forgets a seen id. -/
theorem seen_sub_pushUnique (st : FbState) (it : Option RawTrack) :
    ∀ x ∈ st.seen, x ∈ (pushUnique st it).seen := by
  intro x hx
  cases it with
  | none => exact hx
  | some tk =>
    cases htk : tk.id with
    | none => simp only [pushUnique, htk]; exact hx
    | some i =>
      by_cases hi : i = ""
      · simp only [pushUnique, htk, if_pos hi]; exact hx
      · by_cases hm : i ∈ st.seen
        · simp only [pushUnique, htk, if_neg hi, if_pos hm]; exact hx
        · simp only [pushUnique, htk, if_neg hi, if_neg hm]
          exact List.mem_append_left _ hx

/-- Folding pushUnique never forgets a seen id. -/
theorem seen_sub_foldl (items : List (Option RawTrack)) (st : FbState) :
    ∀ x ∈ st.seen, x ∈ (items.foldl pushUnique st).seen := by
  induction items generalizing st with
  | nil => intro x hx; exact hx
  | cons it rest ih =>
    intro x hx
    exact ih (pushUnique st it) x (seen_sub_pushUnique st it x hx)

/-- A newly seen id after a pushUnique was either already seen or is the
truthy id of the pushed item. -/
theorem seen_pushUnique_cases (st : FbState) (it : Option RawTrack) :
    ∀ x ∈ (pushUnique st it).seen,
      x ∈ st.seen ∨ ∃ tk, it = some tk ∧ tk.id = some x ∧ x ≠ "" := by
  intro x hx
  cases it with
  | none => exact Or.inl hx
  | some tk =>
    cases htk : tk.id with
    | none =>
      simp only [pushUnique, htk] at hx
      exact Or.inl hx
    | some i =>
      by_cases hi : i = ""
      · simp only [pushUnique, htk, if_pos hi] at hx
        exact Or.inl hx
      · by_cases hm : i ∈ st.seen
        · simp only [pushUnique, htk, if_neg hi, if_pos hm] at hx
          exact Or.inl hx
        · simp only [pushUnique, htk, if_neg hi, if_neg hm] at hx
          rcases List.mem_append.mp hx with hx | hx
          · exact Or.inl hx
          · rw [List.mem_singleton] at hx
            subst hx
            exact Or.inr ⟨tk, rfl, htk, hi⟩

/-- The pushed item's truthy id is always seen afterwards. -/
theorem seen_pushUnique_self (st : FbState) (tk : RawTrack) (i : String)
    (htk : tk.id = some i) (hi : i ≠ "") :
    i ∈ (pushUnique st (some tk)).seen := by
  by_cases hm : i ∈ st.seen
  · exact seen_sub_pushUnique st (some tk) i hm
  · simp only [pushUnique, htk, if_neg hi, if_neg hm]
    exact List.mem_append_right _ (List.mem_singleton.mpr rfl)

/-- Pushing the same item into two collectors preserves seen-set
domination. -/
theorem seenLE_pushUnique (s t : FbState) (it : Option RawTrack)
    (h : seenLE s t) : seenLE (pushUnique s it) (pushUnique t it) := by
  intro x hx
  rcases seen_pushUnique_cases s it x hx with hx | ⟨tk, hit, htk, hne⟩
  · exact seen_sub_pushUnique t it x (h x hx)
  · subst hit
    exact seen_pushUnique_self t tk x htk hne

/-- Folding the same items into two collectors preserves seen-set
domination. -/
theorem seenLE_foldl (items : List (Option RawTrack)) (s t : FbState)
    (h : seenLE s t) :
    seenLE (items.foldl pushUnique s) (items.foldl pushUnique t) := by
  induction items generalizing s t with
  | nil => exact h
  | cons it rest ih => exact ih _ _ (seenLE_pushUnique s t it h)

/-- A degraded list-answer step keeps the collector dominated by the
reference collector. -/
theorem seenLE_applyFetchList
    (fp fo : String → Option (List (Option RawTrack)))
    (hle : ∀ x, fp x = none ∨ fp x = fo x) (s t : FbState) (x : String)
    (h : seenLE s t) :
    seenLE (applyFetchList fp s x) (applyFetchList fo t x) := by
  rcases hle x with hp | hp
  · simp only [applyFetchList, hp]
    cases ho : fo x with
    | none => exact h
    | some items =>
      intro y hy
      exact seen_sub_foldl items t y (h y hy)
  · simp only [applyFetchList, hp]
    cases ho : fo x with
    | none => simp only [ho]; exact h
    | some items => simp only [ho]; exact seenLE_foldl items s t h

/-- A degraded track-lookup step keeps the collector dominated by the
reference collector. -/
theorem seenLE_applyTrack (p o : FbOracles)
    (hle : ∀ x, p.trackLookup x = none ∨ p.trackLookup x = o.trackLookup x)
    (s t : FbState) (x : String) (h : seenLE s t) :
    seenLE (applyTrack p s x) (applyTrack o t x) := by
  rcases hle x with hp | hp
  · simp only [applyTrack, hp]
    cases ho : o.trackLookup x with
    | none => exact h
    | some item =>
      intro y hy
      exact seen_sub_pushUnique t item y (h y hy)
  · simp only [applyTrack, hp]
    cases ho : o.trackLookup x with
    | none => simp only [ho]; exact h
    | some item => simp only [ho]; exact seenLE_pushUnique s t item h

/-- Folding a degraded step against the reference step preserves
domination. -/
theorem seenLE_foldl_step (stepP stepO : FbState → String → FbState)
    (hsim : ∀ s t x, seenLE s t → seenLE (stepP s x) (stepO t x))
    (seeds : List String) (s t : FbState) (h : seenLE s t) :
    seenLE (seeds.foldl stepP s) (seeds.foldl stepO t) := by
  induction seeds generalizing s t with
  | nil => exact h
  | cons x rest ih => exact ih _ _ (hsim s t x h)

/-- Any fold of an invariant-preserving step preserves the invariant. -/
theorem stInv_foldl_step (step : FbState → String → FbState)
    (hstep : ∀ s x, stInv s → stInv (step s x)) (seeds : List String)
    (st : FbState) (h : stInv st) : stInv (seeds.foldl step st) := by
  induction seeds generalizing st with
  | nil => exact h
  | cons x rest ih => exact ih _ (hstep st x h)

/-- A dominated collector holds no more tracks than its dominator. -/
theorem length_le_of_seenLE (s t : FbState) (hs : stInv s) (ht : stInv t)
    (h : seenLE s t) : s.collected.length ≤ t.collected.length := by
  have hsub : s.seen ⊆ t.seen := by
    intro x hx
    exact h x hx
  have h1 : s.seen.length ≤ t.seen.length := (hs.2.1.subperm hsub).length_le
  have e1 : s.seen.length = s.collected.length := by
    rw [hs.1, List.length_map]
  have e2 : t.seen.length = t.collected.length := by
    rw [ht.1, List.length_map]
  omega

/-- Degraded-versus-reference simulation of one fallback loop, below the
limit: if the reference loop finishes short of the limit, the degraded
loop stays dominated and also finishes short of the limit. -/
theorem loopStage_sim (stepP stepO : FbState → String → FbState)
    (mark : String → FbCall) (limit : Nat) (seeds : List String)
    (hinvP : ∀ s x, stInv s → stInv (stepP s x))
    (hinvO : ∀ s x, stInv s → stInv (stepO s x))
    (hmonoP : ∀ s x, s.collected.length ≤ (stepP s x).collected.length)
    (hsim : ∀ s t x, seenLE s t → seenLE (stepP s x) (stepO t x))
    (s t : FbState) (hs : stInv s) (ht : stInv t) (hle : seenLE s t)
    (hlt : (loopStage stepO mark limit seeds t).1.collected.length < limit) :
    seenLE (loopStage stepP mark limit seeds s).1
        (loopStage stepO mark limit seeds t).1 ∧
      (loopStage stepP mark limit seeds s).1.collected.length < limit := by
  have hOfold : (loopStage stepO mark limit seeds t).1 = seeds.foldl stepO t :=
    loopStage_eq_foldl stepO mark limit seeds t hlt
  have hfoldsim : seenLE (seeds.foldl stepP s) (seeds.foldl stepO t) :=
    seenLE_foldl_step stepP stepO hsim seeds s t hle
  have hfoldlen : (seeds.foldl stepP s).collected.length ≤
      (seeds.foldl stepO t).collected.length :=
    length_le_of_seenLE _ _ (stInv_foldl_step stepP hinvP seeds s hs)
      (stInv_foldl_step stepO hinvO seeds t ht) hfoldsim
  have hPstagelen : (loopStage stepP mark limit seeds s).1.collected.length ≤
      (seeds.foldl stepP s).collected.length :=
    loopStage_le_foldl stepP mark limit seeds s hmonoP
  have hPlt : (loopStage stepP mark limit seeds s).1.collected.length < limit := by
    rw [hOfold] at hlt
    omega
  have hPfold : (loopStage stepP mark limit seeds s).1 = seeds.foldl stepP s :=
    loopStage_eq_foldl stepP mark limit seeds s hPlt
  refine ⟨?_, hPlt⟩
  rw [hPfold, hOfold]
  exact hfoldsim

/-- The final fallback collector, written through the two gates. -/
theorem runFallback_state (o : FbOracles) (a g t : List String) (l : Nat) :
    (runFallback o a g t l).1 =
      (gatedStage (trackStage o l t) t l
        (gatedStage (genreStage o l g) g l (artistStage o l a fbInit))).1 := rfl

/-- The calls of the fallback are the three stages' calls in order. -/
theorem runFallback_calls (o : FbOracles) (a g t : List String) (l : Nat) :
    (runFallback o a g t l).2 =
      (artistStage o l a fbInit).2 ++
      (gatedStage (genreStage o l g) g l (artistStage o l a fbInit)).2 ++
      (gatedStage (trackStage o l t) t l
        (gatedStage (genreStage o l g) g l (artistStage o l a fbInit))).2 := rfl

/-- A gate never shrinks the collection when its stage does not. -/
theorem gatedStage_len_mono (stage : FbState → FbState × List FbCall)
    (seeds : List String) (limit : Nat) (r : FbState × List FbCall)
    (hstage : ∀ s, s.collected.length ≤ (stage s).1.collected.length) :
    r.1.collected.length ≤ (gatedStage stage seeds limit r).1.collected.length := by
  by_cases hc : r.1.collected.length < limit ∧ seeds ≠ []
  · rw [gatedStage, if_pos hc]
    exact hstage r.1
  · rw [gatedStage, if_neg hc]

/-- A gate preserves the invariant when its stage does. -/
theorem stInv_gatedStage (stage : FbState → FbState × List FbCall)
    (seeds : List String) (limit : Nat) (r : FbState × List FbCall)
    (hstage : ∀ s, stInv s → stInv (stage s).1) (h : stInv r.1) :
    stInv (gatedStage stage seeds limit r).1 := by
  by_cases hc : r.1.collected.length < limit ∧ seeds ≠ []
  · rw [gatedStage, if_pos hc]
    exact hstage r.1 h
  · rw [gatedStage, if_neg hc]
    exact h

/-- Degraded-versus-reference simulation of a gated stage, below the
limit. -/
theorem gatedStage_sim (stageP stageO : FbState → FbState × List FbCall)
    (seeds : List String) (limit : Nat) (rp ro : FbState × List FbCall)
    (hsim : ∀ s t, stInv s → stInv t → seenLE s t →
      (stageO t).1.collected.length < limit →
      seenLE (stageP s).1 (stageO t).1 ∧
        (stageP s).1.collected.length < limit)
    (hlenp : rp.1.collected.length < limit) (hle : seenLE rp.1 ro.1)
    (hp : stInv rp.1) (ho : stInv ro.1)
    (hlt : (gatedStage stageO seeds limit ro).1.collected.length < limit) :
    seenLE (gatedStage stageP seeds limit rp).1
        (gatedStage stageO seeds limit ro).1 ∧
      (gatedStage stageP seeds limit rp).1.collected.length < limit := by
  by_cases hseeds : seeds = []
  · have hnp : ¬ (rp.1.collected.length < limit ∧ seeds ≠ []) :=
      fun hc => hc.2 hseeds
    have hno : ¬ (ro.1.collected.length < limit ∧ seeds ≠ []) :=
      fun hc => hc.2 hseeds
    rw [gatedStage, if_neg hnp, gatedStage, if_neg hno]
    exact ⟨hle, hlenp⟩
  · have hro : ro.1.collected.length < limit := by
      by_contra hge
      rw [gatedStage, if_neg (fun hc => hge hc.1)] at hlt
      exact hge hlt
    have hgo : gatedStage stageO seeds limit ro = stageO ro.1 := by
      rw [gatedStage, if_pos ⟨hro, hseeds⟩]
    have hgp : gatedStage stageP seeds limit rp = stageP rp.1 := by
      rw [gatedStage, if_pos ⟨hlenp, hseeds⟩]
    rw [hgo] at hlt
    rw [hgo, hgp]
    exact hsim rp.1 ro.1 hp ho hle hlt

/-- The artist stage preserves the invariant. -/
theorem stInv_artistStage (o : FbOracles) (l : Nat) (a : List String)
    (st : FbState) (h : stInv st) : stInv (artistStage o l a st).1 :=
  stInv_loopStage _ _ _ _ _ (fun s x hs => stInv_applyFetchList o.topTracks s x hs) h

/-- The genre stage preserves the invariant. -/
theorem stInv_genreStage (o : FbOracles) (l : Nat) (g : List String)
    (st : FbState) (h : stInv st) : stInv (genreStage o l g st).1 :=
  stInv_loopStage _ _ _ _ _ (fun s x hs => stInv_applyFetchList o.genreSearch s x hs) h

/-- The track stage preserves the invariant. -/
theorem stInv_trackStage (o : FbOracles) (l : Nat) (t : List String)
    (st : FbState) (h : stInv st) : stInv (trackStage o l t st).1 :=
  stInv_loopStage _ _ _ _ _ (fun s x hs => stInv_applyTrack o s x hs) h

/-- The final fallback collector satisfies the invariant for every
oracle, seed lists and limit. -/
theorem stInv_runFallback (o : FbOracles) (a g t : List String) (l : Nat) :
    stInv (runFallback o a g t l).1 := by
  rw [runFallback_state]
  exact stInv_gatedStage _ _ _ _ (fun s hs => stInv_trackStage o l t s hs)
    (stInv_gatedStage _ _ _ _ (fun s hs => stInv_genreStage o l g s hs)
      (stInv_artistStage o l a fbInit stInv_fbInit))

/-- A degraded oracle collects no more tracks than the reference oracle
whenever the reference run finishes short of the limit. -/
theorem runFallback_sim (p o : FbOracles) (a g t : List String) (l : Nat)
    (hle : oracleLE p o)
    (hlt : (runFallback o a g t l).1.collected.length < l) :
    (runFallback p a g t l).1.collected.length ≤
      (runFallback o a g t l).1.collected.length := by
  obtain ⟨hleT, hleG, hleL⟩ := hle
  rw [runFallback_state] at hlt ⊢
  rw [runFallback_state]
  have hmono2 : ∀ s : FbState,
      s.collected.length ≤ (genreStage o l g s).1.collected.length :=
    fun s => length_le_loopStage _ _ _ _ s
      (fun s2 x => length_le_applyFetchList o.genreSearch s2 x)
  have hmono3 : ∀ s : FbState,
      s.collected.length ≤ (trackStage o l t s).1.collected.length :=
    fun s => length_le_loopStage _ _ _ _ s
      (fun s2 x => length_le_applyTrack o s2 x)
  have hg2lt : (gatedStage (genreStage o l g) g l
      (artistStage o l a fbInit)).1.collected.length < l :=
    lt_of_le_of_lt (gatedStage_len_mono _ _ _ _ hmono3) hlt
  have hA_lt : (artistStage o l a fbInit).1.collected.length < l :=
    lt_of_le_of_lt (gatedStage_len_mono _ _ _ _ hmono2) hg2lt
  have hinvA_p : stInv (artistStage p l a fbInit).1 :=
    stInv_artistStage p l a fbInit stInv_fbInit
  have hinvA_o : stInv (artistStage o l a fbInit).1 :=
    stInv_artistStage o l a fbInit stInv_fbInit
  have h1 := loopStage_sim (applyArtist p) (applyArtist o) FbCall.topTracks l a
    (fun s x hs => stInv_applyFetchList p.topTracks s x hs)
    (fun s x hs => stInv_applyFetchList o.topTracks s x hs)
    (fun s x => length_le_applyFetchList p.topTracks s x)
    (fun s u x hsu => seenLE_applyFetchList p.topTracks o.topTracks hleT s u x hsu)
    fbInit fbInit stInv_fbInit stInv_fbInit (fun x hx => hx) hA_lt
  have h2 := gatedStage_sim (genreStage p l g) (genreStage o l g) g l
    (artistStage p l a fbInit) (artistStage o l a fbInit)
    (fun s u hs hu hsu hu_lt => loopStage_sim (applyGenre p) (applyGenre o)
      FbCall.genreSearch l g
      (fun s2 x h2 => stInv_applyFetchList p.genreSearch s2 x h2)
      (fun s2 x h2 => stInv_applyFetchList o.genreSearch s2 x h2)
      (fun s2 x => length_le_applyFetchList p.genreSearch s2 x)
      (fun s2 u2 x h2 => seenLE_applyFetchList p.genreSearch o.genreSearch hleG s2 u2 x h2)
      s u hs hu hsu hu_lt)
    h1.2 h1.1 hinvA_p hinvA_o hg2lt
  have hinv2_p : stInv (gatedStage (genreStage p l g) g l
      (artistStage p l a fbInit)).1 :=
    stInv_gatedStage _ _ _ _ (fun s hs => stInv_genreStage p l g s hs) hinvA_p
  have hinv2_o : stInv (gatedStage (genreStage o l g) g l
      (artistStage o l a fbInit)).1 :=
    stInv_gatedStage _ _ _ _ (fun s hs => stInv_genreStage o l g s hs) hinvA_o
  have h3 := gatedStage_sim (trackStage p l t) (trackStage o l t) t l
    (gatedStage (genreStage p l g) g l (artistStage p l a fbInit))
    (gatedStage (genreStage o l g) g l (artistStage o l a fbInit))
    (fun s u hs hu hsu hu_lt => loopStage_sim (applyTrack p) (applyTrack o)
      FbCall.trackLookup l t
      (fun s2 x h2 => stInv_applyTrack p s2 x h2)
      (fun s2 x h2 => stInv_applyTrack o s2 x h2)
      (fun s2 x => length_le_applyTrack p s2 x)
      (fun s2 u2 x h2 => seenLE_applyTrack p o hleL s2 u2 x h2)
      s u hs hu hsu hu_lt)
    h2.2 h2.1 hinv2_p hinv2_o hlt
  exact length_le_of_seenLE _ _
    (stInv_gatedStage _ _ _ _ (fun s hs => stInv_trackStage p l t s hs) hinv2_p)
    (stInv_gatedStage _ _ _ _ (fun s hs => stInv_trackStage o l t s hs) hinv2_o)
    h3.1

/-- A loop whose step has no effect leaves the collector unchanged. -/
theorem loopStage_id (step : FbState → String → FbState)
    (mark : String → FbCall) (limit : Nat) (seeds : List String)
    (st : FbState) (hstep : ∀ s x, step s x = s) :
    (loopStage step mark limit seeds st).1 = st := by
  induction seeds generalizing st with
  | nil => rfl
  | cons x rest ih =>
    simp only [loopStage, hstep]
    by_cases hb : limit ≤ st.collected.length
    · rw [if_pos hb]
    · rw [if_neg hb]
      exact ih st

/-- A gate whose stage has no effect leaves the collector unchanged. -/
theorem gatedStage_id (stage : FbState → FbState × List FbCall)
    (seeds : List String) (limit : Nat) (r : FbState × List FbCall)
    (h : ∀ s, (stage s).1 = s) :
    (gatedStage stage seeds limit r).1 = r.1 := by
  by_cases hc : r.1.collected.length < limit ∧ seeds ≠ []
  · rw [gatedStage, if_pos hc]
    exact h r.1
  · rw [gatedStage, if_neg hc]

/-- C3: fallback orchestration — if the artist stage alone reaches the
limit the whole fallback equals the artist stage and issues no further
calls; the artist stage only issues top-tracks calls for artist seeds; a
stage breaks right after the call that reaches the limit; genre-search
calls happen only when the collection is short of the limit and genre
seeds exist; track lookups only when still short after the genre gate
and track seeds exist; and the response is the first limit entries of
the collection in discovery order. -/
theorem C3_fallback_orchestration :
    ∀ (o : FbOracles) (a g t : List String) (l : Nat),
      (l ≤ (artistStage o l a fbInit).1.collected.length →
        runFallback o a g t l = artistStage o l a fbInit) ∧
      (∀ c ∈ (artistStage o l a fbInit).2, ∃ x ∈ a, c = FbCall.topTracks x) ∧
      (∀ (x : String) (rest : List String) (st : FbState),
        l ≤ (applyArtist o st x).collected.length →
        artistStage o l (x :: rest) st =
          (applyArtist o st x, [FbCall.topTracks x])) ∧
      (∀ x : String, FbCall.genreSearch x ∈ (runFallback o a g t l).2 →
        (artistStage o l a fbInit).1.collected.length < l ∧ g ≠ [] ∧ x ∈ g) ∧
      (∀ x : String, FbCall.trackLookup x ∈ (runFallback o a g t l).2 →
        (gatedStage (genreStage o l g) g l
          (artistStage o l a fbInit)).1.collected.length < l ∧
          t ≠ [] ∧ x ∈ t) ∧
      fallbackResponse o a g t l <+: (runFallback o a g t l).1.collected ∧
      (fallbackResponse o a g t l).length ≤ l ∧
      (l ≤ (runFallback o a g t l).1.collected.length →
        (fallbackResponse o a g t l).length = l) := by
  intro o a g t l
  refine ⟨?_, ?_, ?_, ?_, ?_, ?_, ?_, ?_⟩
  · intro h
    have hng : ¬ ((artistStage o l a fbInit).1.collected.length < l ∧
        g ≠ []) := fun hc => absurd hc.1 (not_lt.mpr h)
    have h2 : gatedStage (genreStage o l g) g l (artistStage o l a fbInit) =
        ((artistStage o l a fbInit).1, []) := by
      rw [gatedStage, if_neg hng]
    have hnt : ¬ (((artistStage o l a fbInit).1,
        ([] : List FbCall)).1.collected.length < l ∧ t ≠ []) :=
      fun hc => absurd hc.1 (not_lt.mpr h)
    have h3 : gatedStage (trackStage o l t) t l
        ((artistStage o l a fbInit).1, []) =
        ((artistStage o l a fbInit).1, []) := by
      rw [gatedStage, if_neg hnt]
    show ((gatedStage (trackStage o l t) t l
        (gatedStage (genreStage o l g) g l (artistStage o l a fbInit))).1,
      (artistStage o l a fbInit).2 ++
      (gatedStage (genreStage o l g) g l (artistStage o l a fbInit)).2 ++
      (gatedStage (trackStage o l t) t l
        (gatedStage (genreStage o l g) g l (artistStage o l a fbInit))).2) =
      artistStage o l a fbInit
    rw [h2, h3]
    simp
  · intro c hc
    exact loopStage_calls (applyArtist o) FbCall.topTracks l a fbInit c hc
  · intro x rest st h
    exact loopStage_break (applyArtist o) FbCall.topTracks l x rest st h
  · intro x hmem
    rw [runFallback_calls] at hmem
    rcases List.mem_append.mp hmem with hmem | hmem3
    · rcases List.mem_append.mp hmem with hmem1 | hmem2
      · obtain ⟨y, _, heq⟩ :=
          loopStage_calls (applyArtist o) FbCall.topTracks l a fbInit _ hmem1
        exact FbCall.noConfusion heq
      · by_cases hc : (artistStage o l a fbInit).1.collected.length < l ∧
            g ≠ []
        · rw [gatedStage, if_pos hc] at hmem2
          obtain ⟨y, hy, heq⟩ := loopStage_calls (applyGenre o)
            FbCall.genreSearch l g (artistStage o l a fbInit).1 _ hmem2
          have hxy : x = y := FbCall.genreSearch.inj heq
          exact ⟨hc.1, hc.2, hxy ▸ hy⟩
        · rw [gatedStage, if_neg hc] at hmem2
          exact absurd hmem2 (List.not_mem_nil _)
    · by_cases hc : (gatedStage (genreStage o l g) g l
          (artistStage o l a fbInit)).1.collected.length < l ∧ t ≠ []
      · rw [gatedStage, if_pos hc] at hmem3
        obtain ⟨y, _, heq⟩ := loopStage_calls (applyTrack o)
          FbCall.trackLookup l t _ _ hmem3
        exact FbCall.noConfusion heq
      · rw [gatedStage, if_neg hc] at hmem3
        exact absurd hmem3 (List.not_mem_nil _)
  · intro x hmem
    rw [runFallback_calls] at hmem
    rcases List.mem_append.mp hmem with hmem | hmem3
    · rcases List.mem_append.mp hmem with hmem1 | hmem2
      · obtain ⟨y, _, heq⟩ :=
          loopStage_calls (applyArtist o) FbCall.topTracks l a fbInit _ hmem1
        exact FbCall.noConfusion heq
      · by_cases hc : (artistStage o l a fbInit).1.collected.length < l ∧
            g ≠ []
        · rw [gatedStage, if_pos hc] at hmem2
          obtain ⟨y, _, heq⟩ := loopStage_calls (applyGenre o)
            FbCall.genreSearch l g (artistStage o l a fbInit).1 _ hmem2
          exact FbCall.noConfusion heq
        · rw [gatedStage, if_neg hc] at hmem2
          exact absurd hmem2 (List.not_mem_nil _)
    · by_cases hc : (gatedStage (genreStage o l g) g l
          (artistStage o l a fbInit)).1.collected.length < l ∧ t ≠ []
      · rw [gatedStage, if_pos hc] at hmem3
        obtain ⟨y, hy, heq⟩ := loopStage_calls (applyTrack o)
          FbCall.trackLookup l t _ _ hmem3
        have hxy : x = y := FbCall.trackLookup.inj heq
        exact ⟨hc.1, hc.2, hxy ▸ hy⟩
      · rw [gatedStage, if_neg hc] at hmem3
        exact absurd hmem3 (List.not_mem_nil _)
  · exact List.take_prefix l _
  · simp only [fallbackResponse, List.length_take]
    exact min_le_left _ _
  · intro h
    simp only [fallbackResponse, List.length_take]
    omega

/-- C3 witness at concrete inputs: with an artist whose top tracks
already fill limit 2, the fallback equals the artist stage (no genre or
track calls) and the response holds exactly 2 tracks. -/
theorem C3_fallback_orchestration_witness :
    runFallback twoTrackOracles ["A"] ["g"] ["tr"] 2 =
      artistStage twoTrackOracles 2 ["A"] fbInit ∧
    (fallbackResponse twoTrackOracles ["A"] ["g"] ["tr"] 2).length = 2 := by
  constructor
  · exact (C3_fallback_orchestration twoTrackOracles ["A"] ["g"] ["tr"] 2).1
      (by decide)
  · exact
      (C3_fallback_orchestration twoTrackOracles ["A"] ["g"] ["tr"] 2).2.2.2.2.2.2.2
      (by decide)

/-- C5: fallback de-duplication — a pushed track whose id was already
seen leaves the collector unchanged (dropped, not merged, so the first
occurrence keeps its position); the final collection never holds two
tracks with the same id; and in the two-artist overlap scenario the
shared id appears exactly once, carrying the first seed's payload. -/
theorem C5_fallback_dedup :
    (∀ (st : FbState) (tk : RawTrack) (i : String), tk.id = some i →
      i ≠ "" → i ∈ st.seen → pushUnique st (some tk) = st) ∧
    (∀ (o : FbOracles) (a g t : List String) (l : Nat),
      ((runFallback o a g t l).1.collected.map keyOf).Nodup) ∧
    fallbackResponse overlapOracles ["A1", "A2"] [] [] 3 =
      [⟨some "t1", "p1"⟩, ⟨some "t2", "p2"⟩, ⟨some "t3", "p3"⟩] := by
  refine ⟨?_, ?_, by decide⟩
  · intro st tk i htk hi hmem
    simp only [pushUnique, htk, if_neg hi, if_pos hmem]
  · intro o a g t l
    have h := stInv_runFallback o a g t l
    rw [← h.1]
    exact h.2.1

/-- C5 witness at a concrete collector: pushing a track whose id "x" was
already seen (with a different payload) leaves the collector unchanged. -/
theorem C5_fallback_dedup_witness :
    pushUnique ⟨[⟨some "x", "p"⟩], ["x"]⟩ (some ⟨some "x", "q"⟩) =
      ⟨[⟨some "x", "p"⟩], ["x"]⟩ :=
  C5_fallback_dedup.1 ⟨[⟨some "x", "p"⟩], ["x"]⟩ ⟨some "x", "q"⟩ "x" rfl
    (by decide) (by decide)

/-- C8: partial-failure absorption — a failing sub-call in any of the
three stages is swallowed and the loop continues with the next seed; a
run where every sub-call fails still completes with an empty track list;
and degrading any sub-calls to failures never increases the number of
results returned. -/
theorem C8_partial_failure_absorption :
    (∀ (o : FbOracles) (l : Nat) (x : String) (rest : List String)
      (st : FbState), o.topTracks x = none →
      (artistStage o l (x :: rest) st).1 =
        if l ≤ st.collected.length then st
        else (artistStage o l rest st).1) ∧
    (∀ (o : FbOracles) (l : Nat) (x : String) (rest : List String)
      (st : FbState), o.genreSearch x = none →
      (genreStage o l (x :: rest) st).1 =
        if l ≤ st.collected.length then st
        else (genreStage o l rest st).1) ∧
    (∀ (o : FbOracles) (l : Nat) (x : String) (rest : List String)
      (st : FbState), o.trackLookup x = none →
      (trackStage o l (x :: rest) st).1 =
        if l ≤ st.collected.length then st
        else (trackStage o l rest st).1) ∧
    (∀ (a g t : List String) (l : Nat),
      fallbackResponse failingOracles a g t l = []) ∧
    (∀ (p o : FbOracles) (a g t : List String) (l : Nat), oracleLE p o →
      (fallbackResponse p a g t l).length ≤
        (fallbackResponse o a g t l).length) := by
  refine ⟨?_, ?_, ?_, ?_, ?_⟩
  · intro o l x rest st h
    have hstep : applyArtist o st x = st := by
      simp only [applyArtist, applyFetchList, h]
    exact loopStage_skip (applyArtist o) FbCall.topTracks l x rest st hstep
  · intro o l x rest st h
    have hstep : applyGenre o st x = st := by
      simp only [applyGenre, applyFetchList, h]
    exact loopStage_skip (applyGenre o) FbCall.genreSearch l x rest st hstep
  · intro o l x rest st h
    have hstep : applyTrack o st x = st := by
      simp only [applyTrack, h]
    exact loopStage_skip (applyTrack o) FbCall.trackLookup l x rest st hstep
  · intro a g t l
    have h1 : (artistStage failingOracles l a fbInit).1 = fbInit :=
      loopStage_id _ _ _ _ _ (fun s x => rfl)
    have hid2 : ∀ s : FbState, (genreStage failingOracles l g s).1 = s :=
      fun s => loopStage_id _ _ _ _ _ (fun s2 x => rfl)
    have hid3 : ∀ s : FbState, (trackStage failingOracles l t s).1 = s :=
      fun s => loopStage_id _ _ _ _ _ (fun s2 x => rfl)
    have hstate : (runFallback failingOracles a g t l).1 = fbInit := by
      rw [runFallback_state, gatedStage_id _ _ _ _ hid3,
        gatedStage_id _ _ _ _ hid2, h1]
    simp only [fallbackResponse, hstate]
    exact List.take_nil
  · intro p o a g t l hle
    by_cases hfull : l ≤ (runFallback o a g t l).1.collected.length
    · have hple : (fallbackResponse p a g t l).length ≤ l := by
        simp only [fallbackResponse, List.length_take]
        exact min_le_left _ _
      have holen : (fallbackResponse o a g t l).length = l := by
        simp only [fallbackResponse, List.length_take]
        omega
      rw [holen]
      exact hple
    · have hlt : (runFallback o a g t l).1.collected.length < l :=
        not_le.mp hfull
      have hs := runFallback_sim p o a g t l hle hlt
      simp only [fallbackResponse, List.length_take]
      exact min_le_min (le_refl l) hs

/-- C8 witness at concrete inputs: a failing artist sub-call leaves the
collector empty and the loop finished; an all-failure run returns the
empty track list; and an all-failure run returns no more tracks than the
succeeding one. -/
theorem C8_partial_failure_absorption_witness :
    (artistStage failingOracles 2 ["A"] fbInit).1 = fbInit ∧
    fallbackResponse failingOracles ["A"] ["g"] ["tr"] 5 = [] ∧
    (fallbackResponse failingOracles ["A"] [] [] 2).length ≤
      (fallbackResponse twoTrackOracles ["A"] [] [] 2).length := by
  refine ⟨?_, ?_, ?_⟩
  · have h := C8_partial_failure_absorption.1 failingOracles 2 "A" [] fbInit rfl
    exact h.trans (by decide)
  · exact C8_partial_failure_absorption.2.2.2.1 ["A"] ["g"] ["tr"] 5
  · exact C8_partial_failure_absorption.2.2.2.2 failingOracles twoTrackOracles
      ["A"] [] [] 2
      ⟨fun x => Or.inl rfl, fun x => Or.inl rfl, fun x => Or.inl rfl⟩

/-- C10: every track in the fallback response has a truthy id, because
pushUnique silently discards null items and items with a missing or
empty id, for every combination of upstream answers. -/
theorem C10_fallback_track_ids :
    (∀ st : FbState, pushUnique st none = st) ∧
    (∀ (st : FbState) (p : String), pushUnique st (some ⟨none, p⟩) = st) ∧
    (∀ (st : FbState) (p : String), pushUnique st (some ⟨some "", p⟩) = st) ∧
    (∀ (o : FbOracles) (a g t : List String) (l : Nat),
      ∀ tk ∈ fallbackResponse o a g t l, idOk tk = true) := by
  refine ⟨fun st => rfl, fun st p => rfl, ?_, ?_⟩
  · intro st p
    simp [pushUnique]
  · intro o a g t l tk hmem
    have hsub : tk ∈ (runFallback o a g t l).1.collected :=
      List.take_subset l _ hmem
    exact (stInv_runFallback o a g t l).2.2 tk hsub

/-- C10 witness at a concrete run: the single returned track has a
truthy id. -/
theorem C10_fallback_track_ids_witness :
    idOk ⟨some "t1", "p"⟩ = true :=
  C10_fallback_track_ids.2.2.2 oneTrackOracles ["A"] [] [] 1
    ⟨some "t1", "p"⟩ (by decide)

end SpotifyProxy
